import Mathlib

/-!
# tiplay: the streaming queue and the chunk pipeline of `main.go`

A shallow embedding of `Queue` (`Add`, `Stream`), `calTimeRange`, `parseTime`,
`getAudioChunk` and the producer loop of `playMetrics`, followed by the
properties established about them.

Conventions of the embedding.

* A `beep.Streamer` is an object with hidden state. It is modelled by a state
  type `σ` and one transition function `step : σ → buffer → StreamResult`. The
  count a streamer returns is a sample count and is a natural number.
* A `[2]float64` frame is a pair over an amplitude type `F`; the queue never
  computes with amplitudes, it only stores the constant `0`.
* `time.Duration` is an `int64` count of nanoseconds: products, sums and
  negations written in `main.go` wrap modulo `2^64`. `time.Time` is an instant,
  an unbounded integer count of nanoseconds. `int` is 64 bits wide.
-/

namespace Tiplay

/-! ## Audio frames and slices -/

/-- One frame `[2]float64`: channel 0 and channel 1. -/
abbrev Frame (F : Type) := F × F

/-- The assignment `xs[i] = f(xs[i])` on a slice; out of range it leaves the slice alone. -/
def updateAt {α : Type} : List α → Nat → (α → α) → List α
  | [], _, _ => []
  | x :: xs, 0, f => f x :: xs
  | x :: xs, i + 1, f => x :: updateAt xs i f

/-- The body of the silence loop: `samples[i][0] = 0; samples[i][1] = 0`. -/
def zeroFrame {F : Type} [Zero F] (samples : List (Frame F)) (i : Nat) : List (Frame F) :=
  updateAt (updateAt samples i (fun fr => (0, fr.2))) i (fun fr => (fr.1, 0))

/-- The silence loop `for i := range samples[filled:] { samples[i] = 0 }`:
`i` runs over the indices of the sub-slice and indexes `samples` itself. -/
def silence {F : Type} [Zero F] (samples : List (Frame F)) (filled : Nat) : List (Frame F) :=
  (List.range (samples.drop filled).length).foldl zeroFrame samples

/-- What a streamer does to the slice it is handed: `out` lands on the first
slots of the slice, and nothing is written past the end of the slice. -/
def overwrite {α : Type} (buf out : List α) : List α :=
  out.take buf.length ++ buf.drop out.length

/-! ## Streamers and the queue -/

/-- The effect of one `Stream` call on a streamer: the frames it wrote, the
returned `n` and `ok`, and the streamer's state after the call. -/
structure StreamResult (σ F : Type) where
  out : List (Frame F)
  n : Nat
  ok : Bool
  next : σ

/-- The struct `Queue`: the queued streamers and the count of drained ones.
The counter starts at zero and grows by one per drained streamer, so that no
run brings it near `2^63`; it is a natural number here. -/
structure Queue (σ : Type) where
  streamers : List σ
  count : Nat

/-- The zero value `var queue Queue`. -/
def Queue.empty {σ : Type} : Queue σ := { streamers := [], count := 0 }

/-- The method `Queue.Add`: `q.streamers = append(q.streamers, streamers...)`. -/
def Queue.Add {σ : Type} (q : Queue σ) (streamers : List σ) : Queue σ :=
  { q with streamers := q.streamers ++ streamers }

/-- The loop of `Queue.Stream`, one unit of fuel per test of `filled < len(samples)`.
`none` means the fuel ran out before the loop ended. -/
def Queue.streamLoop {σ F : Type} [Zero F] (step : σ → List (Frame F) → StreamResult σ F) :
    Nat → Queue σ → List (Frame F) → Nat → Option (Queue σ × List (Frame F))
  | 0, _, _, _ => none
  | fuel + 1, q, samples, filled =>
    if filled < samples.length then
      match q.streamers with
      | [] => some (q, silence samples filled)
      | s :: rest =>
        let r := step s (samples.drop filled)
        let samples1 := samples.take filled ++ overwrite (samples.drop filled) r.out
        let q1 : Queue σ :=
          if r.ok then { q with streamers := r.next :: rest }
          else { streamers := rest, count := q.count + 1 }
        Queue.streamLoop step fuel q1 samples1 (filled + r.n)
    else some (q, samples)

/-- The result of a pull: the queue and the buffer afterwards, and the pair `(n, ok)`. -/
structure Pull (σ F : Type) where
  queue : Queue σ
  samples : List (Frame F)
  n : Nat
  ok : Bool

/-- The method `Queue.Stream`: run the loop from `filled = 0`, then
`return len(samples), true`. -/
def Queue.Stream {σ F : Type} [Zero F] (step : σ → List (Frame F) → StreamResult σ F)
    (fuel : Nat) (q : Queue σ) (samples : List (Frame F)) : Option (Pull σ F) :=
  match Queue.streamLoop step fuel q samples 0 with
  | none => none
  | some (q1, samples1) =>
    some { queue := q1, samples := samples1, n := samples.length, ok := true }

/-- The streamer contract the queue relies on to make progress: a call that
reports `ok` on a non-empty slice has streamed at least one sample. -/
def Progress {σ F : Type} (step : σ → List (Frame F) → StreamResult σ F) : Prop :=
  ∀ s buf, buf ≠ [] → (step s buf).ok = true → 1 ≤ (step s buf).n

/-- A finite source: `rem s` are the samples a streamer in state `s` has yet to
play. A call streams the next `n` of them into the slice, at most as many as
fit; it answers `ok = false` only when nothing is left, streaming nothing. -/
structure FiniteSource {σ F : Type} (step : σ → List (Frame F) → StreamResult σ F)
    (rem : σ → List (Frame F)) : Prop where
  fits : ∀ s buf, (step s buf).n ≤ buf.length
  writes : ∀ s buf, (step s buf).out = (rem s).take (step s buf).n
  bounded : ∀ s buf, (step s buf).n ≤ (rem s).length
  advances : ∀ s buf, (step s buf).ok = true → rem (step s buf).next = (rem s).drop (step s buf).n
  drained : ∀ s buf, (step s buf).ok = false → (step s buf).n = 0 ∧ rem s = []
  progress : Progress step

/-- The list-backed finite source: the state is the list of samples left. It
copies as many samples as fit and stays `ok` until asked when nothing is left. -/
def listStream {F : Type} (s : List (Frame F)) (buf : List (Frame F)) :
    StreamResult (List (Frame F)) F :=
  match s with
  | [] => { out := [], n := 0, ok := false, next := [] }
  | _ :: _ =>
    { out := s.take buf.length, n := min buf.length s.length, ok := true,
      next := s.drop buf.length }

/-! ## Time and durations -/

/-- The value an `int64` holds after an operation whose exact result is `x`. -/
def wrap64 (x : Int) : Int := (x + 2 ^ 63) % 2 ^ 64 - 2 ^ 63

/-- The largest `time.Duration`, `1<<63 - 1` nanoseconds. -/
def maxDuration : Int := 2 ^ 63 - 1

/-- The smallest `time.Duration`, `-1 << 63` nanoseconds. -/
def minDuration : Int := -2 ^ 63

/-- A value of type `time.Duration` (or `int`): an integer in the `int64` range. -/
def IsInt64 (d : Int) : Prop := minDuration ≤ d ∧ d ≤ maxDuration

instance IsInt64.decidable (d : Int) : Decidable (IsInt64 d) :=
  inferInstanceAs (Decidable (minDuration ≤ d ∧ d ≤ maxDuration))

/-- The constant `time.Second`, in nanoseconds. -/
def second : Int := 1000000000

/-- The constant `time.Minute`, in nanoseconds. -/
def minute : Int := 60 * second

/-- The product `a * b` of two `time.Duration` values. -/
def Duration.mul (a b : Int) : Int := wrap64 (a * b)

/-- The negation `-d` of a `time.Duration`. -/
def Duration.neg (d : Int) : Int := wrap64 (-d)

/-- The quotient `a / b` of two `time.Duration` values: truncated, `none` for the
run-time panic on a zero divisor. -/
def Duration.div (a b : Int) : Option Int :=
  if b = 0 then none else some (wrap64 (Int.tdiv a b))

/-- The method `Time.Add`: the instant `d` nanoseconds after `t`. -/
def Time.Add (t d : Int) : Int := t + d

/-- The method `Time.Sub`: the duration `t - u`, which saturates at the largest
and the smallest `time.Duration`. -/
def Time.Sub (t u : Int) : Int :=
  if maxDuration < t - u then maxDuration
  else if t - u < minDuration then minDuration
  else t - u

/-- The method `Time.After`. -/
def Time.After (t u : Int) : Bool := decide (u < t)

/-- The method `Time.Before`. -/
def Time.Before (t u : Int) : Bool := decide (t < u)

/-- The command-line flags read by the pipeline. -/
structure Flags where
  prometheusURL : String
  offset : Int
  startTime : String
  endTime : String
  trackName : String
  chunkSize : Int

/-- The function `parseTime`; `parse` stands for `time.Parse(TIME_FORMAT, ·)`,
`none` being a parse error. -/
def parseTime (parse : String → Option Int) (s : String) (v : Int) : Int :=
  if s = "" then v
  else
    match parse s with
    | some t => t
    | none => v

/-- The function `calTimeRange`; `now` is the reading of `time.Now()`. -/
def calTimeRange (parse : String → Option Int) (now : Int) (flags : Flags) : Int × Int :=
  let startT := parseTime parse flags.startTime (Time.Add now (Duration.neg flags.offset))
  let endT := parseTime parse flags.endTime now
  let endT := if Time.After endT now then now else endT
  let startT := if Time.Before endT startT then Time.Add endT (Duration.neg flags.offset) else startT
  (startT, endT)

/-! ## Range queries -/

/-- The struct `v1.Range`. -/
structure Range where
  Start : Int
  End : Int
  Step : Int
deriving DecidableEq, Repr

/-- A data point `model.SamplePair`. -/
structure SamplePair (V : Type) where
  Timestamp : Int
  Value : V

/-- A series `model.SampleStream`, reduced to its `Values`. -/
structure SampleStream (V : Type) where
  Values : List (SamplePair V)

/-- The result `model.Value` of a query, by its `Type()`. -/
inductive Value (V : Type) where
  | none
  | scalar (s : SamplePair V)
  | vector (v : List (SamplePair V))
  | matrix (m : List (SampleStream V))
  | string (s : String)

/-- A `wav.Sample`, reduced to its `Values [2]int`. -/
abbrev WavSample := Int × Int

/-- The range of the query that `getAudioChunk` sends for chunk `n`. -/
def chunkRange (startTime scrapeInterval chunkSize n : Int) : Range :=
  { Start := Time.Add startTime (Duration.mul chunkSize (wrap64 (n + 0)))
    End := Time.Add startTime (Duration.mul chunkSize (wrap64 (n + 1)))
    Step := Duration.mul (Duration.mul scrapeInterval second) 1 }

/-- The part of `getAudioChunk` after the query: the samples of a matrix, series by
series and point by point, and `nil` for any other type and for no sample at
all. `toInt` is the conversion `int(elem.Value)`. -/
def chunkOf {V : Type} (toInt : V → Int) (value : Value V) : List WavSample :=
  match value with
  | .matrix m =>
    let samples : List WavSample :=
      m.foldl (fun acc series =>
        series.Values.foldl (fun acc elem => acc ++ [(toInt elem.Value, toInt elem.Value)]) acc) []
    if samples.length = 0 then [] else samples
  | _ => []

/-- The function `getAudioChunk`; `q` is `q.QueryRange`, and an error of the query
is the panic of `panicError`. -/
def getAudioChunk {E V : Type} (q : String → Range → Except E (Value V)) (toInt : V → Int)
    (startTime : Int) (trackName : String) (scrapeInterval chunkSize n : Int) :
    Except E (List WavSample) :=
  match q trackName (chunkRange startTime scrapeInterval chunkSize n) with
  | .error err => .error err
  | .ok value => .ok (chunkOf toInt value)

/-! ## The producer -/

/-- The actions of the producer that the other side can observe, in program order. -/
inductive Action (σ : Type) where
  | play
  | queryRange (r : Range)
  | lock
  | add (streamers : List σ)
  | unlock
  | receiveDone

/-- Why a run stopped early: an error handed to `panicError`, or a division by zero. -/
inductive Fault (E : Type) where
  | err (e : E)
  | divideByZero

/-- How a run of the producer ends. -/
inductive Run (E σ : Type) where
  | finished (trace : List (Action σ))
  | panicked (fault : Fault E)
  | outOfFuel

/-- The chunk loop `for i := 0; i <= step; i++` of `playMetrics`, one unit of fuel
per test of `i <= step`. `mk` is the chain encode, `bwav.Decode`, `beep.Resample`,
whose error is a panic. -/
def chunkLoop {E V σ : Type} (q : String → Range → Except E (Value V)) (toInt : V → Int)
    (mk : List WavSample → Except E σ) (startT : Int) (trackName : String)
    (scrapeInterval chunkSize step : Int) :
    Nat → Int → List (Action σ) → Run E σ
  | 0, _, _ => .outOfFuel
  | fuel + 1, i, trace =>
    if i ≤ step then
      let asked := trace ++ [.queryRange (chunkRange startT scrapeInterval chunkSize i)]
      match getAudioChunk q toInt startT trackName scrapeInterval chunkSize i with
      | .error e => .panicked (.err e)
      | .ok data =>
        if data.length = 0 then
          chunkLoop q toInt mk startT trackName scrapeInterval chunkSize step fuel
            (wrap64 (i + 1)) asked
        else
          match mk data with
          | .error e => .panicked (.err e)
          | .ok resampled =>
            chunkLoop q toInt mk startT trackName scrapeInterval chunkSize step fuel
              (wrap64 (i + 1)) (asked ++ [.lock, .add [resampled], .unlock])
    else .finished trace

/-- The function `playMetrics`. `newClient` is `prometheus.NewClient` followed by
`v1.NewAPI`, and `callback` is the streamer `beep.Callback(...)` that signals `done`. -/
def playMetrics {E V σ : Type} (parse : String → Option Int) (now : Int) (flags : Flags)
    (newClient : String → Except E (String → Range → Except E (Value V)))
    (toInt : V → Int) (mk : List WavSample → Except E σ) (callback : σ) (fuel : Nat) :
    Run E σ :=
  let scrapeInterval : Int := 1
  let (startT, endT) := calTimeRange parse now flags
  match Duration.div (Time.Sub endT startT) flags.chunkSize with
  | none => .panicked .divideByZero
  | some step =>
    match newClient flags.prometheusURL with
    | .error e => .panicked (.err e)
    | .ok q =>
      match chunkLoop q toInt mk startT flags.trackName scrapeInterval flags.chunkSize step
          fuel 0 [.play] with
      | .finished trace => .finished (trace ++ [.add [callback], .receiveDone])
      | .panicked fault => .panicked fault
      | .outOfFuel => .outOfFuel

/-- The ranges queried in a trace, in order. -/
def queried {σ : Type} : List (Action σ) → List Range
  | [] => []
  | .queryRange r :: rest => r :: queried rest
  | _ :: rest => queried rest

/-- The streamers appended to the queue in a trace, in order. -/
def added {σ : Type} : List (Action σ) → List σ
  | [] => []
  | .add ss :: rest => ss ++ added rest
  | _ :: rest => added rest

/-- Whether every `add` of a trace happens while the speaker lock is held;
`held` tells whether it is held at the start of the trace. -/
def addsLocked {σ : Type} : Bool → List (Action σ) → Bool
  | _, [] => true
  | _, .lock :: rest => addsLocked true rest
  | _, .unlock :: rest => addsLocked false rest
  | held, .add _ :: rest => held && addsLocked held rest
  | held, _ :: rest => addsLocked held rest

/-- The number of data points of a query result as the pipeline counts them:
the points of all series of a matrix, and none for any other type. -/
def dataPoints {V : Type} (value : Value V) : Nat :=
  match value with
  | .matrix m => (m.map (fun series => series.Values.length)).sum
  | _ => 0

/-- The actions of one turn of the chunk loop whose query, for the range `r`,
answers `value` and whose samples decode to the streamer `src data`. -/
def iteration {V σ : Type} (toInt : V → Int) (src : List WavSample → σ) (r : Range)
    (value : Value V) : List (Action σ) :=
  .queryRange r ::
    (if (chunkOf toInt value).length = 0 then []
     else [.lock, .add [src (chunkOf toInt value)], .unlock])

/-- Whether the speaker lock is held after a trace; `held` tells whether it is
held at the start of the trace. -/
def heldAfter {σ : Type} : Bool → List (Action σ) → Bool
  | held, [] => held
  | _, .lock :: rest => heldAfter true rest
  | _, .unlock :: rest => heldAfter false rest
  | held, _ :: rest => heldAfter held rest

/-- The ranges queried in a run that finished. -/
def Run.queried {E σ : Type} : Run E σ → List Range
  | .finished trace => Tiplay.queried trace
  | _ => []

/-! ## Concrete inputs -/

/-- Flags with only `-offset` and `-chunk` set, beside the URL and the track. -/
def offsetFlags (offset chunkSize : Int) : Flags :=
  { prometheusURL := "http://127.0.0.1:9090", offset := offset, startTime := "", endTime := ""
    trackName := "up", chunkSize := chunkSize }

/-- Flags with `-offset` set to the smallest duration and a start time given. -/
def minOffsetFlags : Flags :=
  { prometheusURL := "http://127.0.0.1:9090", offset := minDuration
    startTime := "2999-01-01 00:00:00", endTime := "", trackName := "up", chunkSize := minute }

/-- A parser that fails on every string. -/
def parseNothing : String → Option Int := fun _ => none

/-- A parser that reads every string as the instant 1 ns after the epoch of the model. -/
def parseOne : String → Option Int := fun _ => some 1

/-- A metrics source that never fails and answers `value` to every query. -/
def constClient {V : Type} (value : Value V) :
    String → Except Unit (String → Range → Except Unit (Value V)) :=
  fun _ => .ok (fun _ _ => .ok value)

/-- A decoder that never fails and keeps the samples as the state of the streamer. -/
def keepSamples : List WavSample → Except Unit (List WavSample) := fun d => .ok d

/-- A metrics source whose answer has one data point for the range that starts at
the instant 0 and is an empty matrix for every other range. -/
def pointAtZero : String → Range → Value Int :=
  fun _ r =>
    if r.Start = 0 then .matrix [SampleStream.mk [SamplePair.mk 0 7]]
    else .matrix [SampleStream.mk []]

/-! ## Slices: auxiliary facts -/

theorem updateAt_length {α : Type} (xs : List α) (i : Nat) (f : α → α) :
    (updateAt xs i f).length = xs.length := by
  induction xs generalizing i with
  | nil => rfl
  | cons x xs ih =>
    cases i with
    | zero => rfl
    | succ i => simp [updateAt, ih]

theorem updateAt_append_cons {α : Type} (pre : List α) (x : α) (post : List α) (f : α → α) :
    updateAt (pre ++ x :: post) pre.length f = pre ++ f x :: post := by
  induction pre with
  | nil => rfl
  | cons p pre ih => simp [updateAt, ih]

theorem zeroFrame_append_cons {F : Type} [Zero F] (pre : List (Frame F)) (x : Frame F)
    (post : List (Frame F)) :
    zeroFrame (pre ++ x :: post) pre.length = pre ++ (0, 0) :: post := by
  unfold zeroFrame
  rw [updateAt_append_cons, updateAt_append_cons]

theorem silence_fold {F : Type} [Zero F] (samples : List (Frame F)) (m : Nat)
    (hm : m ≤ samples.length) :
    (List.range m).foldl zeroFrame samples
      = List.replicate m ((0, 0) : Frame F) ++ samples.drop m := by
  induction m with
  | zero => simp
  | succ m ih =>
    have hlt : m < samples.length := hm
    rw [List.range_succ, List.foldl_append, ih (Nat.le_of_lt hlt)]
    simp only [List.foldl_cons, List.foldl_nil]
    have hd : samples.drop m = samples[m] :: samples.drop (m + 1) :=
      List.drop_eq_getElem_cons hlt
    have hz := zeroFrame_append_cons (List.replicate m ((0, 0) : Frame F)) samples[m]
      (samples.drop (m + 1))
    rw [List.length_replicate] at hz
    rw [hd, hz, List.replicate_succ' , List.append_assoc]
    rfl

/-- The silence loop zeroes the first `len - filled` slots and keeps the others. -/
theorem silence_eq {F : Type} [Zero F] (samples : List (Frame F)) (filled : Nat) :
    silence samples filled
      = List.replicate (samples.length - filled) ((0, 0) : Frame F)
        ++ samples.drop (samples.length - filled) := by
  unfold silence
  rw [List.length_drop]
  exact silence_fold samples _ (Nat.sub_le _ _)

theorem silence_length {F : Type} [Zero F] (samples : List (Frame F)) (filled : Nat) :
    (silence samples filled).length = samples.length := by
  rw [silence_eq]
  simp only [List.length_append, List.length_replicate, List.length_drop]
  omega

theorem overwrite_length {α : Type} (buf out : List α) :
    (overwrite buf out).length = buf.length := by
  unfold overwrite
  simp only [List.length_append, List.length_take, List.length_drop]
  omega

theorem write_length {α : Type} (samples out : List α) (filled : Nat) :
    (samples.take filled ++ overwrite (samples.drop filled) out).length = samples.length := by
  simp only [List.length_append, List.length_take, overwrite_length, List.length_drop]
  omega

/-! ## The pull loop: termination and fuel -/

theorem streamLoop_nil {σ F : Type} [Zero F] (step : σ → List (Frame F) → StreamResult σ F)
    (fuel c : Nat) (samples : List (Frame F)) (filled : Nat) (h : filled < samples.length) :
    Queue.streamLoop step (fuel + 1) { streamers := [], count := c } samples filled
      = some ({ streamers := [], count := c }, silence samples filled) := by
  simp [Queue.streamLoop, h]

theorem streamLoop_cons {σ F : Type} [Zero F] (step : σ → List (Frame F) → StreamResult σ F)
    (fuel c : Nat) (s : σ) (rest : List σ) (samples : List (Frame F)) (filled : Nat)
    (h : filled < samples.length) :
    Queue.streamLoop step (fuel + 1) { streamers := s :: rest, count := c } samples filled
      = Queue.streamLoop step fuel
          (if (step s (samples.drop filled)).ok
            then { streamers := (step s (samples.drop filled)).next :: rest, count := c }
            else { streamers := rest, count := c + 1 })
          (samples.take filled ++ overwrite (samples.drop filled) (step s (samples.drop filled)).out)
          (filled + (step s (samples.drop filled)).n) := by
  simp [Queue.streamLoop, h]

theorem streamLoop_full {σ F : Type} [Zero F] (step : σ → List (Frame F) → StreamResult σ F)
    (fuel : Nat) (q : Queue σ) (samples : List (Frame F)) (filled : Nat)
    (h : ¬ filled < samples.length) :
    Queue.streamLoop step (fuel + 1) q samples filled = some (q, samples) := by
  simp [Queue.streamLoop, h]

/-- More fuel does not change the result of a loop that ended. -/
theorem streamLoop_mono {σ F : Type} [Zero F] (step : σ → List (Frame F) → StreamResult σ F)
    (fuel : Nat) :
    ∀ (q : Queue σ) (samples : List (Frame F)) (filled : Nat) (r : Queue σ × List (Frame F)),
      Queue.streamLoop step fuel q samples filled = some r →
      ∀ k, Queue.streamLoop step (fuel + k) q samples filled = some r := by
  induction fuel with
  | zero => intro q samples filled r h; simp [Queue.streamLoop] at h
  | succ fuel ih =>
    intro q samples filled r h k
    have hk : fuel + 1 + k = (fuel + k) + 1 := by omega
    rw [hk]
    by_cases hlt : filled < samples.length
    · obtain ⟨ss, c⟩ := q
      cases ss with
      | nil =>
        rw [streamLoop_nil step _ c samples filled hlt] at h ⊢
        exact h
      | cons s rest =>
        rw [streamLoop_cons step _ c s rest samples filled hlt] at h ⊢
        exact ih _ _ _ r h k
    · rw [streamLoop_full step _ q samples filled hlt] at h ⊢
      exact h

/-- Under the progress contract the loop ends within
`(len - filled) + len(q.streamers) + 1` tests, and the slice keeps its length. -/
theorem streamLoop_terminates {σ F : Type} [Zero F]
    (step : σ → List (Frame F) → StreamResult σ F) (hp : Progress step) (fuel : Nat) :
    ∀ (q : Queue σ) (samples : List (Frame F)) (filled : Nat),
      (samples.length - filled) + q.streamers.length + 1 ≤ fuel →
      ∃ r, Queue.streamLoop step fuel q samples filled = some r
        ∧ r.2.length = samples.length := by
  induction fuel with
  | zero => intro q samples filled h; omega
  | succ fuel ih =>
    intro q samples filled h
    by_cases hlt : filled < samples.length
    · obtain ⟨ss, c⟩ := q
      cases ss with
      | nil =>
        exact ⟨_, streamLoop_nil step _ c samples filled hlt, silence_length samples filled⟩
      | cons s rest =>
        rw [streamLoop_cons step _ c s rest samples filled hlt]
        have hne : samples.drop filled ≠ [] := by
          intro he
          have := congrArg List.length he
          simp only [List.length_drop, List.length_nil] at this
          omega
        have hlen := write_length samples (step s (samples.drop filled)).out filled
        simp only [List.length_cons] at h
        cases hok : (step s (samples.drop filled)).ok with
        | true =>
          have hn := hp s (samples.drop filled) hne hok
          obtain ⟨r, hr, hl⟩ := ih
            { streamers := (step s (samples.drop filled)).next :: rest, count := c }
            (samples.take filled ++ overwrite (samples.drop filled) (step s (samples.drop filled)).out)
            (filled + (step s (samples.drop filled)).n)
            (by rw [hlen]; simp only [List.length_cons]; omega)
          exact ⟨r, by simpa using hr, by rw [hl, hlen]⟩
        | false =>
          obtain ⟨r, hr, hl⟩ := ih
            { streamers := rest, count := c + 1 }
            (samples.take filled ++ overwrite (samples.drop filled) (step s (samples.drop filled)).out)
            (filled + (step s (samples.drop filled)).n)
            (by rw [hlen]; simp only []; omega)
          exact ⟨r, by simpa using hr, by rw [hl, hlen]⟩
    · exact ⟨_, streamLoop_full step _ q samples filled hlt, rfl⟩

/-! ## The pull loop over finite sources -/

/-- What a finite source that streams `n` samples leaves in the slice. -/
theorem write_finite {α : Type} (samples R : List α) (filled n : Nat)
    (hn : n ≤ samples.length - filled) (hR : n ≤ R.length) :
    samples.take filled ++ overwrite (samples.drop filled) (R.take n)
      = (samples.take filled ++ R.take n) ++ samples.drop (filled + n) := by
  unfold overwrite
  have h1 : (R.take n).length = n := by simp [List.length_take, hR]
  have h2 : (R.take n).take (samples.drop filled).length = R.take n := by
    apply List.take_of_length_le
    rw [h1, List.length_drop]
    exact hn
  rw [h1, h2, List.drop_drop, List.append_assoc]

theorem take_write_finite {α : Type} (samples R : List α) (filled n : Nat)
    (hfl : filled ≤ samples.length) (hR : n ≤ R.length) :
    ((samples.take filled ++ R.take n) ++ samples.drop (filled + n)).take (filled + n)
      = samples.take filled ++ R.take n := by
  apply List.take_left'
  simp only [List.length_append, List.length_take]
  omega

theorem streamLoop_take_drop {σ F : Type} [Zero F]
    (step : σ → List (Frame F) → StreamResult σ F) (rem : σ → List (Frame F))
    (hf : FiniteSource step rem) (fuel : Nat) :
    ∀ (q : Queue σ) (samples : List (Frame F)) (filled : Nat),
      filled ≤ samples.length →
      samples.length - filled ≤ (q.streamers.flatMap rem).length →
      (samples.length - filled) + q.streamers.length + 1 ≤ fuel →
      ∃ (k : Nat) (q1 : Queue σ),
        Queue.streamLoop step fuel q samples filled
          = some (q1, samples.take filled
              ++ (q.streamers.flatMap rem).take (samples.length - filled))
        ∧ q1.streamers.flatMap rem = (q.streamers.flatMap rem).drop (samples.length - filled)
        ∧ q1.count = q.count + k
        ∧ q1.streamers.length + k = q.streamers.length
        ∧ q1.streamers.drop 1 = q.streamers.drop (k + 1) := by
  induction fuel with
  | zero => intro q samples filled _ _ h; omega
  | succ fuel ih =>
    intro q samples filled hfl hrem hfuel
    by_cases hlt : filled < samples.length
    · obtain ⟨ss, c⟩ := q
      cases ss with
      | nil => simp at hrem; omega
      | cons s rest =>
        rw [streamLoop_cons step _ c s rest samples filled hlt]
        simp only [List.flatMap_cons, List.length_append, List.length_cons] at hrem hfuel ⊢
        have hne : samples.drop filled ≠ [] := by
          intro he
          have := congrArg List.length he
          simp only [List.length_drop, List.length_nil] at this
          omega
        have hfits := hf.fits s (samples.drop filled)
        rw [List.length_drop] at hfits
        have hbd := hf.bounded s (samples.drop filled)
        have hw := hf.writes s (samples.drop filled)
        generalize hr : step s (samples.drop filled) = r at hfits hbd hw
        have hsamp := write_finite samples (rem s) filled r.n hfits hbd
        rw [hw, hsamp]
        have hlen : ((samples.take filled ++ (rem s).take r.n) ++ samples.drop (filled + r.n)).length
            = samples.length := by
          simp only [List.length_append, List.length_take, List.length_drop]
          omega
        cases hok : r.ok with
        | true =>
          have hn : 1 ≤ r.n := by
            have := hf.progress s (samples.drop filled) hne
            rw [hr] at this
            exact this hok
          have hadv : rem r.next = (rem s).drop r.n := by
            have := hf.advances s (samples.drop filled)
            rw [hr] at this
            exact this hok
          have hall : (r.next :: rest).flatMap rem = (rem s ++ rest.flatMap rem).drop r.n := by
            rw [List.flatMap_cons, hadv, List.drop_append_of_le_length hbd]
          obtain ⟨k, q1, hrun, hq1, hcnt, hlenq, hsuf⟩ := ih
            { streamers := r.next :: rest, count := c }
            ((samples.take filled ++ (rem s).take r.n) ++ samples.drop (filled + r.n))
            (filled + r.n)
            (by rw [hlen]; omega)
            (by
              rw [hlen]
              simp only []
              rw [hall, List.length_drop, List.length_append]
              omega)
            (by rw [hlen]; simp only [List.length_cons]; omega)
          refine ⟨k, q1, ?_, ?_, hcnt, ?_, ?_⟩
          · simp only [if_true]
            rw [hrun, hlen, take_write_finite samples (rem s) filled r.n hfl hbd]
            simp only []
            rw [hall]
            have hsplit : samples.length - filled = r.n + (samples.length - (filled + r.n)) := by
              omega
            rw [hsplit, List.take_add, List.take_append_of_le_length hbd, List.append_assoc]
          · rw [hq1, hlen]
            simp only []
            rw [hall, List.drop_drop]
            congr 1
            omega
          · simpa using hlenq
          · simpa using hsuf
        | false =>
          have hdr : r.n = 0 ∧ rem s = [] := by
            have := hf.drained s (samples.drop filled)
            rw [hr] at this
            exact this hok
          obtain ⟨hn0, hrs⟩ := hdr
          have hsame : (samples.take filled ++ (rem s).take r.n) ++ samples.drop (filled + r.n)
              = samples := by
            rw [hn0, hrs]
            simp
          rw [hsame, hn0, Nat.add_zero]
          rw [hrs] at hrem ⊢
          simp only [List.nil_append, List.length_nil, Nat.zero_add] at hrem ⊢
          obtain ⟨k, q1, hrun, hq1, hcnt, hlenq, hsuf⟩ := ih
            { streamers := rest, count := c + 1 } samples filled hfl hrem (by simp only []; omega)
          refine ⟨k + 1, q1, ?_, hq1, ?_, ?_, ?_⟩
          · simpa using hrun
          · simp only [] at hcnt ⊢; omega
          · simp only [] at hlenq ⊢; omega
          · simpa using hsuf
    · have hL : samples.length - filled = 0 := by omega
      refine ⟨0, q, ?_, ?_, rfl, rfl, rfl⟩
      · rw [streamLoop_full step _ q samples filled hlt, hL]
        have : samples.take filled = samples := List.take_of_length_le (by omega)
        simp [this]
      · rw [hL]; simp

/-! ## The list-backed source -/

theorem listStream_progress {F : Type} :
    Progress (listStream : List (Frame F) → List (Frame F) → StreamResult (List (Frame F)) F) := by
  intro s buf hbuf hok
  cases s with
  | nil => simp [listStream] at hok
  | cons x xs =>
    cases buf with
    | nil => exact absurd rfl hbuf
    | cons b bs => simp [listStream]

theorem listStream_finite {F : Type} :
    FiniteSource (listStream : List (Frame F) → List (Frame F) → StreamResult (List (Frame F)) F)
      (fun s => s) where
  fits := by
    intro s buf
    cases s <;> simp [listStream]
  writes := by
    intro s buf
    cases s with
    | nil => simp [listStream]
    | cons x xs =>
      simp only [listStream]
      by_cases h : buf.length ≤ (x :: xs).length
      · rw [Nat.min_eq_left h]
      · rw [Nat.min_eq_right (by omega), List.take_length]
        exact List.take_of_length_le (by omega)
  bounded := by
    intro s buf
    cases s <;> simp [listStream]
  advances := by
    intro s buf hok
    cases s with
    | nil => simp [listStream] at hok
    | cons x xs =>
      simp only [listStream]
      by_cases h : buf.length ≤ (x :: xs).length
      · rw [Nat.min_eq_left h]
      · rw [Nat.min_eq_right (by omega), List.drop_length]
        exact List.drop_of_length_le (by omega)
  drained := by
    intro s buf hok
    cases s with
    | nil => simp [listStream]
    | cons x xs => simp [listStream] at hok
  progress := listStream_progress

/-! ## Properties of `Queue.Stream` -/

/-- C1. Always-full pull: when every streamer obeys the progress contract (a
call that reports more-available on a non-empty slice streams at least one
sample), `Queue.Stream` on a buffer of length `L` terminates for every queue,
with one and the same result for every sufficient amount of fuel, and
returns `n = L` and `ok = true`; the buffer keeps its length. -/
theorem Stream_always_full {σ F : Type} [Zero F]
    (step : σ → List (Frame F) → StreamResult σ F) (hp : Progress step)
    (q : Queue σ) (samples : List (Frame F)) :
    ∃ p : Pull σ F, p.n = samples.length ∧ p.ok = true ∧ p.samples.length = samples.length
      ∧ ∀ fuel, samples.length + q.streamers.length + 1 ≤ fuel →
          Queue.Stream step fuel q samples = some p := by
  obtain ⟨r, hr, hl⟩ := streamLoop_terminates step hp
    (samples.length + q.streamers.length + 1) q samples 0 (by omega)
  refine ⟨{ queue := r.1, samples := r.2, n := samples.length, ok := true }, rfl, rfl, hl, ?_⟩
  intro fuel hfuel
  have hm := streamLoop_mono step _ q samples 0 r hr
    (fuel - (samples.length + q.streamers.length + 1))
  have he : samples.length + q.streamers.length + 1
      + (fuel - (samples.length + q.streamers.length + 1)) = fuel := by omega
  rw [he] at hm
  unfold Queue.Stream
  rw [hm]

/-- Witness of C1: a queue of two list-backed sources, the first of which runs
out in the middle of the pull. -/
theorem Stream_always_full_witness :
    Progress (listStream : List (Frame Int) → List (Frame Int) → StreamResult (List (Frame Int)) Int)
    ∧ ∃ p : Pull (List (Frame Int)) Int,
        p.n = [((7 : Int), (7 : Int)), (8, 8), (9, 9)].length ∧ p.ok = true
        ∧ p.samples.length = [((7 : Int), (7 : Int)), (8, 8), (9, 9)].length
        ∧ ∀ fuel,
            [((7 : Int), (7 : Int)), (8, 8), (9, 9)].length
              + (Queue.mk [[((1 : Int), (1 : Int))], [(2, 2), (3, 3), (4, 4)]] 0).streamers.length
              + 1 ≤ fuel →
            Queue.Stream listStream fuel
              (Queue.mk [[((1 : Int), (1 : Int))], [(2, 2), (3, 3), (4, 4)]] 0)
              [((7 : Int), (7 : Int)), (8, 8), (9, 9)] = some p :=
  ⟨listStream_progress,
    Stream_always_full listStream listStream_progress
      (Queue.mk [[((1 : Int), (1 : Int))], [(2, 2), (3, 3), (4, 4)]] 0)
      [((7 : Int), (7 : Int)), (8, 8), (9, 9)]⟩

/-- C4. Silence fallback: when the queue holds no streamer at the start of a
pull, `Queue.Stream` on a buffer of any length sets every slot to zero on
both channels, whatever the buffer held, returns `(len(samples), true)`, and
leaves the queue empty and the counter unchanged. -/
theorem Stream_empty_queue_silence {σ F : Type} [Zero F]
    (step : σ → List (Frame F) → StreamResult σ F) (count fuel : Nat)
    (samples : List (Frame F)) :
    Queue.Stream step (fuel + 1) { streamers := [], count := count } samples
      = some { queue := { streamers := [], count := count }
               samples := List.replicate samples.length ((0, 0) : Frame F)
               n := samples.length
               ok := true } := by
  unfold Queue.Stream
  by_cases h : 0 < samples.length
  · rw [streamLoop_nil step fuel count samples 0 h, silence_eq]
    simp
  · rw [streamLoop_full step fuel _ samples 0 h]
    have : samples = [] := List.length_eq_zero.mp (by omega)
    subst this
    rfl

/-- C10. Take and drop: for a queue of finite sources whose remaining samples
number at least `L`, one pull on a buffer of length `L` returns `(L, true)` and
leaves in the buffer exactly the first `L` samples of the concatenation of the
remaining samples in queue order; the sources left hold exactly the samples
after the first `L`; `k` sources were removed from the front, the counter grew
by `k`, and behind the front source the queue is the old queue without its
first `k + 1` sources. -/
theorem Stream_take_drop {σ F : Type} [Zero F]
    (step : σ → List (Frame F) → StreamResult σ F) (rem : σ → List (Frame F))
    (hf : FiniteSource step rem) (q : Queue σ) (samples : List (Frame F)) (fuel : Nat)
    (htotal : samples.length ≤ (q.streamers.flatMap rem).length)
    (hfuel : samples.length + q.streamers.length + 1 ≤ fuel) :
    ∃ (k : Nat) (q1 : Queue σ),
      Queue.Stream step fuel q samples
        = some { queue := q1
                 samples := (q.streamers.flatMap rem).take samples.length
                 n := samples.length
                 ok := true }
      ∧ q1.streamers.flatMap rem = (q.streamers.flatMap rem).drop samples.length
      ∧ q1.count = q.count + k
      ∧ q1.streamers.length + k = q.streamers.length
      ∧ q1.streamers.drop 1 = q.streamers.drop (k + 1) := by
  obtain ⟨k, q1, hrun, hrem, hcnt, hlen, hsuf⟩ :=
    streamLoop_take_drop step rem hf fuel q samples 0 (Nat.zero_le _) (by simpa using htotal)
      (by simpa using hfuel)
  refine ⟨k, q1, ?_, by simpa using hrem, hcnt, hlen, hsuf⟩
  unfold Queue.Stream
  rw [hrun]
  simp

/-- Witness of C10: two list-backed sources holding four samples, a pull of three. -/
theorem Stream_take_drop_witness :
    ∃ (k : Nat) (q1 : Queue (List (Frame Int))),
      Queue.Stream listStream 6
          (Queue.mk [[((1 : Int), (1 : Int))], [(2, 2), (3, 3), (4, 4)]] 0)
          [((7 : Int), (7 : Int)), (8, 8), (9, 9)]
        = some { queue := q1
                 samples := ((Queue.mk [[((1 : Int), (1 : Int))], [(2, 2), (3, 3), (4, 4)]] 0).streamers.flatMap
                    (fun s => s)).take [((7 : Int), (7 : Int)), (8, 8), (9, 9)].length
                 n := [((7 : Int), (7 : Int)), (8, 8), (9, 9)].length
                 ok := true }
      ∧ q1.streamers.flatMap (fun s => s)
          = ((Queue.mk [[((1 : Int), (1 : Int))], [(2, 2), (3, 3), (4, 4)]] 0).streamers.flatMap
              (fun s => s)).drop [((7 : Int), (7 : Int)), (8, 8), (9, 9)].length
      ∧ q1.count = (Queue.mk [[((1 : Int), (1 : Int))], [(2, 2), (3, 3), (4, 4)]] 0).count + k
      ∧ q1.streamers.length + k
          = (Queue.mk [[((1 : Int), (1 : Int))], [(2, 2), (3, 3), (4, 4)]] 0).streamers.length
      ∧ q1.streamers.drop 1
          = (Queue.mk [[((1 : Int), (1 : Int))], [(2, 2), (3, 3), (4, 4)]] 0).streamers.drop (k + 1) :=
  Stream_take_drop listStream (fun s => s) listStream_finite
    (Queue.mk [[((1 : Int), (1 : Int))], [(2, 2), (3, 3), (4, 4)]] 0)
    [((7 : Int), (7 : Int)), (8, 8), (9, 9)] 6 (by decide) (by decide)

/-- C3, the code at a failing input. A queue holding one source with the single
sample `(5, 5)` and a buffer `[(7,7), (8,8), (9,9)]`: the source fills slot 0 and
is drained, so the queue is empty with `filled = 1`. The silence loop then
zeroes slots 0 and 1, not slots 1 and 2: the sample in slot 0 is erased and
slot 2 keeps what the buffer held before the pull. -/
theorem Stream_silence_erases_front :
    Queue.Stream listStream 4 (Queue.mk [[((5 : Int), (5 : Int))]] 0)
        [((7 : Int), (7 : Int)), (8, 8), (9, 9)]
      = some { queue := Queue.mk [] 1
               samples := [((0 : Int), (0 : Int)), (0, 0), (9, 9)]
               n := 3
               ok := true } := by
  rfl

/-- C2, the code at a failing input. The sources `[(1,1), (2,2)]` and `[(3,3)]`
are appended by two calls of `Queue.Add` and drained by two pulls of length 2
on a buffer holding `[(9,9), (9,9)]`. The first pull yields `(1,1), (2,2)`. The
second pull yields `(0,0), (9,9)`: the sample `(3,3)` was written to slot 0 and
then erased by the silence loop, so it never reaches the output. -/
theorem Stream_drain_loses_sample :
    Queue.Stream listStream 5
        ((Queue.empty.Add [[((1 : Int), (1 : Int)), (2, 2)]]).Add [[((3 : Int), (3 : Int))]])
        [((9 : Int), (9 : Int)), (9, 9)]
      = some { queue := Queue.mk [[], [((3 : Int), (3 : Int))]] 0
               samples := [((1 : Int), (1 : Int)), (2, 2)]
               n := 2
               ok := true }
    ∧ Queue.Stream listStream 5 (Queue.mk [[], [((3 : Int), (3 : Int))]] 0)
        [((9 : Int), (9 : Int)), (9, 9)]
      = some { queue := Queue.mk [] 2
               samples := [((0 : Int), (0 : Int)), (9, 9)]
               n := 2
               ok := true } := by
  constructor <;> rfl

/-! ## Durations and the chunk loop -/

theorem wrap64_id (x : Int) (h : IsInt64 x) : wrap64 x = x := by
  unfold IsInt64 minDuration maxDuration at h
  unfold wrap64
  omega

/-- The chunk loop over a metrics source and a decoder that never fail: it ends
after the turns `i, i+1, ..., step`, each leaving the actions of `iteration`. -/
theorem chunkLoop_finished {E V σ : Type} (answer : String → Range → Value V)
    (toInt : V → Int) (src : List WavSample → σ) (startT : Int) (track : String)
    (scrape C step : Int) (hstep : step < maxDuration) :
    ∀ (m fuel : Nat) (i : Int) (trace : List (Action σ)),
      0 ≤ i → m = (step + 1 - i).toNat → m + 1 ≤ fuel →
      chunkLoop (fun t r => (Except.ok (answer t r) : Except E (Value V))) toInt
          (fun d => (Except.ok (src d) : Except E σ)) startT track scrape C step fuel i trace
        = Run.finished (trace ++ (List.range m).flatMap (fun j =>
            iteration toInt src (chunkRange startT scrape C (i + (j : Int)))
              (answer track (chunkRange startT scrape C (i + (j : Int)))))) := by
  intro m
  induction m with
  | zero =>
    intro fuel i trace hi hm hfuel
    obtain ⟨f, rfl⟩ : ∃ f, fuel = f + 1 := ⟨fuel - 1, by omega⟩
    have hgt : ¬ i ≤ step := by omega
    simp [chunkLoop, hgt]
  | succ m ih =>
    intro fuel i trace hi hm hfuel
    obtain ⟨f, rfl⟩ : ∃ f, fuel = f + 1 := ⟨fuel - 1, by omega⟩
    have hle : i ≤ step := by omega
    have hw : wrap64 (i + 1) = i + 1 := by
      apply wrap64_id
      unfold IsInt64 minDuration
      unfold maxDuration at hstep ⊢
      constructor <;> omega
    have hshift : (List.range (m + 1)).flatMap (fun j =>
          iteration toInt src (chunkRange startT scrape C (i + (j : Int)))
            (answer track (chunkRange startT scrape C (i + (j : Int)))))
        = iteration toInt src (chunkRange startT scrape C i)
            (answer track (chunkRange startT scrape C i))
          ++ (List.range m).flatMap (fun j =>
            iteration toInt src (chunkRange startT scrape C (i + 1 + (j : Int)))
              (answer track (chunkRange startT scrape C (i + 1 + (j : Int))))) := by
      rw [List.range_succ_eq_map, List.flatMap_cons, List.flatMap_map]
      simp only [Nat.cast_zero, Int.add_zero, Nat.succ_eq_add_one, Nat.cast_add, Nat.cast_one]
      congr 1
      apply congrArg (fun g => List.flatMap (List.range m) g)
      funext j
      have : i + ((j : Int) + 1) = i + 1 + (j : Int) := by omega
      rw [this]
    rw [hshift]
    by_cases hd : (chunkOf toInt (answer track (chunkRange startT scrape C i))).length = 0
    · have := ih f (i + 1)
        (trace ++ [Action.queryRange (chunkRange startT scrape C i)]) (by omega) (by omega)
        (by omega)
      simp only [chunkLoop, hle, if_true, getAudioChunk, hd, hw, this, iteration]
      simp
    · have := ih f (i + 1)
        (trace ++ [Action.queryRange (chunkRange startT scrape C i)]
          ++ [Action.lock,
              Action.add [src (chunkOf toInt (answer track (chunkRange startT scrape C i)))],
              Action.unlock]) (by omega) (by omega) (by omega)
      simp only [chunkLoop, hle, if_true, getAudioChunk, hd, if_false, hw, this, iteration]
      simp

/-! ## Traces -/

theorem queried_append {σ : Type} (xs ys : List (Action σ)) :
    queried (xs ++ ys) = queried xs ++ queried ys := by
  induction xs with
  | nil => rfl
  | cons a xs ih => cases a <;> simp [queried, ih]

theorem added_append {σ : Type} (xs ys : List (Action σ)) :
    added (xs ++ ys) = added xs ++ added ys := by
  induction xs with
  | nil => rfl
  | cons a xs ih => cases a <;> simp [added, ih]

theorem heldAfter_append {σ : Type} (xs ys : List (Action σ)) (held : Bool) :
    heldAfter held (xs ++ ys) = heldAfter (heldAfter held xs) ys := by
  induction xs generalizing held with
  | nil => rfl
  | cons a xs ih => cases a <;> simp [heldAfter, ih]

theorem addsLocked_append {σ : Type} (xs ys : List (Action σ)) (held : Bool) :
    addsLocked held (xs ++ ys) = (addsLocked held xs && addsLocked (heldAfter held xs) ys) := by
  induction xs generalizing held with
  | nil => simp [addsLocked, heldAfter]
  | cons a xs ih => cases a <;> simp [addsLocked, heldAfter, ih, Bool.and_assoc]

theorem queried_iteration {V σ : Type} (toInt : V → Int) (src : List WavSample → σ)
    (r : Range) (value : Value V) : queried (iteration toInt src r value) = [r] := by
  unfold iteration
  split <;> simp [queried]

theorem added_iteration {V σ : Type} (toInt : V → Int) (src : List WavSample → σ)
    (r : Range) (value : Value V) :
    added (iteration toInt src r value)
      = if (chunkOf toInt value).length = 0 then [] else [src (chunkOf toInt value)] := by
  unfold iteration
  split <;> simp [added]

theorem queried_flatMap {α σ : Type} (l : List α) (g : α → List (Action σ)) :
    queried (l.flatMap g) = l.flatMap (fun a => queried (g a)) := by
  induction l with
  | nil => rfl
  | cons a l ih => simp [List.flatMap_cons, queried_append, ih]

theorem added_flatMap {α σ : Type} (l : List α) (g : α → List (Action σ)) :
    added (l.flatMap g) = l.flatMap (fun a => added (g a)) := by
  induction l with
  | nil => rfl
  | cons a l ih => simp [List.flatMap_cons, added_append, ih]

/-- The run of `playMetrics` over a metrics source and a decoder that never fail. -/
theorem playMetrics_finished {E V σ : Type} (parse : String → Option Int) (now : Int)
    (flags : Flags) (answer : String → Range → Value V) (toInt : V → Int)
    (src : List WavSample → σ) (callback : σ) (fuel : Nat) (step : Int)
    (hdiv : Duration.div (Time.Sub (calTimeRange parse now flags).2
      (calTimeRange parse now flags).1) flags.chunkSize = some step)
    (hstep : step < maxDuration) (hfuel : (step + 1).toNat + 1 ≤ fuel) :
    playMetrics parse now flags
        (fun _ => (Except.ok (fun t r => (Except.ok (answer t r) : Except E (Value V)))
          : Except E (String → Range → Except E (Value V))))
        toInt (fun d => (Except.ok (src d) : Except E σ)) callback fuel
      = Run.finished ([Action.play] ++ (List.range (step + 1).toNat).flatMap (fun j =>
            iteration toInt src
              (chunkRange (calTimeRange parse now flags).1 1 flags.chunkSize (j : Int))
              (answer flags.trackName
                (chunkRange (calTimeRange parse now flags).1 1 flags.chunkSize (j : Int))))
          ++ [Action.add [callback], Action.receiveDone]) := by
  have hloop := @chunkLoop_finished E V σ answer toInt src (calTimeRange parse now flags).1
    flags.trackName 1 flags.chunkSize step hstep (step + 1).toNat fuel 0 [Action.play]
    (le_refl 0) (by simp) hfuel
  simp only [Int.zero_add] at hloop
  unfold playMetrics
  simp only [hdiv, hloop]

/-! ## Chunks -/

theorem points_fold_length {V : Type} (toInt : V → Int) (values : List (SamplePair V))
    (acc : List WavSample) :
    (values.foldl (fun acc elem => acc ++ [(toInt elem.Value, toInt elem.Value)]) acc).length
      = acc.length + values.length := by
  induction values generalizing acc with
  | nil => simp
  | cons v values ih =>
    rw [List.foldl_cons, ih]
    simp only [List.length_append, List.length_cons, List.length_nil]
    omega

theorem series_fold_length {V : Type} (toInt : V → Int) (m : List (SampleStream V))
    (acc : List WavSample) :
    (m.foldl (fun acc series =>
        series.Values.foldl (fun acc elem => acc ++ [(toInt elem.Value, toInt elem.Value)]) acc)
      acc).length
      = acc.length + (m.map (fun series => series.Values.length)).sum := by
  induction m generalizing acc with
  | nil => simp
  | cons series m ih =>
    rw [List.foldl_cons, ih, points_fold_length]
    simp only [List.map_cons, List.sum_cons]
    omega

/-- A chunk has one sample per data point of a matrix, and none for another type. -/
theorem chunkOf_length {V : Type} (toInt : V → Int) (value : Value V) :
    (chunkOf toInt value).length = dataPoints value := by
  cases value with
  | matrix m =>
    simp only [chunkOf, dataPoints]
    split
    · rename_i h
      rw [series_fold_length] at h
      simp only [List.length_nil, Nat.zero_add] at h
      simp [h]
    · rw [series_fold_length]
      simp
  | none => rfl
  | scalar s => rfl
  | vector v => rfl
  | string s => rfl

theorem flatMap_skip {α β : Type} (l : List α) (n : α → Nat) (g : α → β) :
    l.flatMap (fun a => if n a = 0 then [] else [g a])
      = (l.filter (fun a => decide (n a ≠ 0))).map g := by
  induction l with
  | nil => rfl
  | cons a l ih =>
    rw [List.flatMap_cons, ih]
    by_cases h : n a = 0 <;> simp [List.filter_cons, h]

theorem flatMap_singleton_map {α β : Type} (l : List α) (g : α → β) :
    l.flatMap (fun a => [g a]) = l.map g := by
  induction l with
  | nil => rfl
  | cons a l ih => simp [List.flatMap_cons, ih]

/-! ## The lock discipline of the chunk loop -/

/-- Inside the chunk loop every append is made with the lock held, and the lock
is released when the loop ends, whatever the metrics source and the decoder do. -/
theorem chunkLoop_discipline {E V σ : Type} (q : String → Range → Except E (Value V))
    (toInt : V → Int) (mk : List WavSample → Except E σ) (startT : Int) (track : String)
    (scrape C step : Int) (fuel : Nat) :
    ∀ (i : Int) (trace t : List (Action σ)),
      chunkLoop q toInt mk startT track scrape C step fuel i trace = Run.finished t →
      addsLocked false trace = true → heldAfter false trace = false →
      addsLocked false t = true ∧ heldAfter false t = false := by
  induction fuel with
  | zero => intro i trace t h; simp [chunkLoop] at h
  | succ fuel ih =>
    intro i trace t h hl hh
    unfold chunkLoop at h
    by_cases hle : i ≤ step
    · simp only [hle, if_true] at h
      cases hq : getAudioChunk q toInt startT track scrape C i with
      | error e => rw [hq] at h; simp at h
      | ok data =>
        rw [hq] at h
        simp only at h
        by_cases hd : data.length = 0
        · simp only [hd, if_true] at h
          refine ih _ _ t h ?_ ?_
          · rw [addsLocked_append, hl, hh]; rfl
          · rw [heldAfter_append, hh]; rfl
        · simp only [hd, if_false] at h
          cases hm : mk data with
          | error e => rw [hm] at h; simp at h
          | ok resampled =>
            rw [hm] at h
            simp only at h
            refine ih _ _ t h ?_ ?_
            · rw [addsLocked_append, addsLocked_append, hl, heldAfter_append, hh]; rfl
            · rw [heldAfter_append, heldAfter_append, hh]; rfl
    · simp only [hle, if_false] at h
      cases h
      exact ⟨hl, hh⟩

/-! ## Exact arithmetic of the windows -/

theorem Sub_le_max (t u : Int) : Time.Sub t u ≤ maxDuration := by
  unfold Time.Sub maxDuration minDuration
  split
  · exact le_refl _
  · split <;> omega

theorem div_exact (D C : Int) (hD : 0 ≤ D) (hmax : D ≤ maxDuration) (hC : 0 < C) :
    Duration.div D C = some (D / C) := by
  unfold Duration.div
  rw [if_neg (by omega), Int.tdiv_eq_ediv hD (le_of_lt hC), wrap64_id]
  constructor
  · have := Int.ediv_nonneg hD (le_of_lt hC)
    unfold minDuration
    omega
  · exact le_trans (Int.ediv_le_self _ hD) hmax

/-- The range of chunk `n` in exact arithmetic, when `(n + 1) * C` is a duration. -/
theorem chunkRange_exact (startT C n : Int) (hn : 0 ≤ n) (hC : 0 < C)
    (hfit : (n + 1) * C ≤ maxDuration) :
    chunkRange startT 1 C n
      = { Start := startT + n * C, End := startT + (n + 1) * C, Step := second } := by
  have h1 : n + 1 ≤ (n + 1) * C := by nlinarith
  have h2 : 0 ≤ C * n := by nlinarith
  have h3 : C * n ≤ (n + 1) * C := by nlinarith
  have h4 : C * (n + 1) = (n + 1) * C := Int.mul_comm _ _
  have e0 : wrap64 (n + 0) = n := by
    rw [Int.add_zero]
    apply wrap64_id
    unfold IsInt64 minDuration
    constructor <;> omega
  have e1 : wrap64 (n + 1) = n + 1 := by
    apply wrap64_id
    unfold IsInt64 minDuration
    constructor <;> omega
  have e2 : wrap64 (C * n) = n * C := by
    rw [wrap64_id, Int.mul_comm]
    unfold IsInt64 minDuration
    constructor <;> omega
  have e3 : wrap64 (C * (n + 1)) = (n + 1) * C := by
    rw [wrap64_id, h4]
    unfold IsInt64 minDuration
    constructor <;> omega
  have e4 : Duration.mul (Duration.mul 1 second) 1 = second := by decide
  simp only [chunkRange, e4]
  simp only [Duration.mul, Time.Add, e0, e1, e2, e3]

/-- The windows queried by a run over a metrics source and a decoder that never
fail, when the end of the last window is a duration. -/
theorem playMetrics_windows_aux {E V σ : Type} (parse : String → Option Int) (now : Int)
    (flags : Flags) (answer : String → Range → Value V) (toInt : V → Int)
    (src : List WavSample → σ) (callback : σ) (fuel : Nat) (startT endT : Int)
    (hcal : calTimeRange parse now flags = (startT, endT))
    (hD : 0 ≤ Time.Sub endT startT) (hC : 0 < flags.chunkSize)
    (hfit : (Time.Sub endT startT / flags.chunkSize + 1) * flags.chunkSize ≤ maxDuration)
    (hfuel : (Time.Sub endT startT / flags.chunkSize + 1).toNat + 1 ≤ fuel) :
    ∃ trace,
      playMetrics parse now flags
          (fun _ => (Except.ok (fun t r => (Except.ok (answer t r) : Except E (Value V)))
            : Except E (String → Range → Except E (Value V))))
          toInt (fun d => (Except.ok (src d) : Except E σ)) callback fuel
        = Run.finished trace
      ∧ queried trace
        = (List.range (Time.Sub endT startT / flags.chunkSize + 1).toNat).map
            (fun (n : Nat) =>
              ({ Start := startT + (n : Int) * flags.chunkSize
                 End := startT + ((n : Int) + 1) * flags.chunkSize
                 Step := second } : Range)) := by
  have hq := Int.ediv_nonneg hD (le_of_lt hC)
  have hone : Time.Sub endT startT / flags.chunkSize + 1
      ≤ (Time.Sub endT startT / flags.chunkSize + 1) * flags.chunkSize := by nlinarith
  have hdiv : Duration.div (Time.Sub (calTimeRange parse now flags).2
      (calTimeRange parse now flags).1) flags.chunkSize
      = some (Time.Sub endT startT / flags.chunkSize) := by
    rw [hcal]
    exact div_exact _ _ hD (Sub_le_max _ _) hC
  have hrun := @playMetrics_finished E V σ parse now flags answer toInt src callback fuel
    (Time.Sub endT startT / flags.chunkSize) hdiv (by omega) hfuel
  refine ⟨_, hrun, ?_⟩
  have h1 : queried [(Action.play : Action σ)] = [] := rfl
  have h2 : queried [Action.add [callback], Action.receiveDone] = [] := rfl
  rw [queried_append, queried_append, queried_flatMap, h1, h2]
  simp only [queried_iteration, List.nil_append, List.append_nil]
  rw [flatMap_singleton_map, hcal]
  apply List.map_congr_left
  intro n hn
  rw [List.mem_range] at hn
  apply chunkRange_exact _ _ _ (by omega) hC
  have hle : (n : Int) + 1 ≤ Time.Sub endT startT / flags.chunkSize + 1 := by omega
  exact le_trans (Int.mul_le_mul_of_nonneg_right hle (le_of_lt hC)) hfit

set_option maxRecDepth 100000

/-! ## Properties of the time range -/

theorem neg_exact (d : Int) (h : IsInt64 d) (hmin : d ≠ minDuration) : Duration.neg d = -d := by
  unfold Duration.neg
  apply wrap64_id
  unfold IsInt64 minDuration maxDuration at *
  constructor <;> omega

/-- C7, amended. Time-range clamp: for every `now`, every offset other than the
smallest duration `-2^63` ns, and parsed-or-default start `s` and end `e`, the
end returned by `calTimeRange` is `now` when `e` is after `now` and `e`
otherwise; the start returned is the returned end minus the offset when the
returned end is before `s`, and `s` otherwise. -/
theorem calTimeRange_clamp (parse : String → Option Int) (now : Int) (flags : Flags)
    (hoff : IsInt64 flags.offset) (hmin : flags.offset ≠ minDuration) :
    (calTimeRange parse now flags).2
        = (if now < parseTime parse flags.endTime now then now
           else parseTime parse flags.endTime now)
    ∧ (calTimeRange parse now flags).1
        = (if (calTimeRange parse now flags).2
              < parseTime parse flags.startTime (Time.Add now (Duration.neg flags.offset))
           then (calTimeRange parse now flags).2 - flags.offset
           else parseTime parse flags.startTime (Time.Add now (Duration.neg flags.offset))) := by
  have hneg := neg_exact flags.offset hoff hmin
  simp only [calTimeRange, Time.After, Time.Before, Time.Add, hneg, decide_eq_true_eq]
  constructor
  · trivial
  · split <;> simp [Int.sub_eq_add_neg]

/-- Witness of C7, amended: an offset of two minutes and a start time in the future. -/
theorem calTimeRange_clamp_witness :
    IsInt64 (Flags.mk "u" (2 * minute) "2999-01-01 00:00:00" "" "up" minute).offset
    ∧ (Flags.mk "u" (2 * minute) "2999-01-01 00:00:00" "" "up" minute).offset ≠ minDuration
    ∧ (calTimeRange parseOne 0 (Flags.mk "u" (2 * minute) "2999-01-01 00:00:00" "" "up" minute)).2
        = (if (0 : Int) < parseTime parseOne
              (Flags.mk "u" (2 * minute) "2999-01-01 00:00:00" "" "up" minute).endTime 0 then 0
           else parseTime parseOne
              (Flags.mk "u" (2 * minute) "2999-01-01 00:00:00" "" "up" minute).endTime 0)
    ∧ (calTimeRange parseOne 0 (Flags.mk "u" (2 * minute) "2999-01-01 00:00:00" "" "up" minute)).1
        = (if (calTimeRange parseOne 0
                (Flags.mk "u" (2 * minute) "2999-01-01 00:00:00" "" "up" minute)).2
              < parseTime parseOne
                  (Flags.mk "u" (2 * minute) "2999-01-01 00:00:00" "" "up" minute).startTime
                  (Time.Add 0 (Duration.neg
                    (Flags.mk "u" (2 * minute) "2999-01-01 00:00:00" "" "up" minute).offset))
           then (calTimeRange parseOne 0
                  (Flags.mk "u" (2 * minute) "2999-01-01 00:00:00" "" "up" minute)).2
                - (Flags.mk "u" (2 * minute) "2999-01-01 00:00:00" "" "up" minute).offset
           else parseTime parseOne
                  (Flags.mk "u" (2 * minute) "2999-01-01 00:00:00" "" "up" minute).startTime
                  (Time.Add 0 (Duration.neg
                    (Flags.mk "u" (2 * minute) "2999-01-01 00:00:00" "" "up" minute).offset))) :=
  ⟨by decide, by decide,
    calTimeRange_clamp parseOne 0 (Flags.mk "u" (2 * minute) "2999-01-01 00:00:00" "" "up" minute)
      (by decide) (by decide)⟩

/-- C7 as stated fails. With `-offset` set to the smallest duration, a start
time after `now` and no end time, the returned end `0` is before the start `s = 1`,
and the returned start is `0 + (-2^63)`, because `-offset` wraps to `offset`
itself; the returned end minus the offset is `2^63`. -/
theorem calTimeRange_min_offset :
    (calTimeRange parseOne 0 minOffsetFlags).2 = 0
    ∧ (calTimeRange parseOne 0 minOffsetFlags).2
        < parseTime parseOne minOffsetFlags.startTime
            (Time.Add 0 (Duration.neg minOffsetFlags.offset))
    ∧ (calTimeRange parseOne 0 minOffsetFlags).1 = -2 ^ 63
    ∧ (calTimeRange parseOne 0 minOffsetFlags).1
        ≠ (calTimeRange parseOne 0 minOffsetFlags).2 - minOffsetFlags.offset := by
  decide

/-! ## Properties of the producer -/

/-- C9, what the code does. In every run of `playMetrics` that finishes, the
trace is the chunk loop, in which every append is made with the speaker lock
held and after which the lock is released, followed by the append of the
completion callback and the wait for `done`: the terminal append is made
without the lock, so the trace as a whole breaks the discipline. -/
theorem playMetrics_terminal_add_unlocked {E V σ : Type} (parse : String → Option Int)
    (now : Int) (flags : Flags)
    (newClient : String → Except E (String → Range → Except E (Value V)))
    (toInt : V → Int) (mk : List WavSample → Except E σ) (callback : σ) (fuel : Nat)
    (trace : List (Action σ))
    (hrun : playMetrics parse now flags newClient toInt mk callback fuel = Run.finished trace) :
    ∃ pre, trace = pre ++ [Action.add [callback], Action.receiveDone]
      ∧ addsLocked false pre = true ∧ heldAfter false pre = false
      ∧ addsLocked false trace = false := by
  unfold playMetrics at hrun
  simp only at hrun
  cases hdiv : Duration.div (Time.Sub (calTimeRange parse now flags).2
      (calTimeRange parse now flags).1) flags.chunkSize with
  | none => rw [hdiv] at hrun; simp at hrun
  | some step =>
    rw [hdiv] at hrun
    simp only at hrun
    cases hc : newClient flags.prometheusURL with
    | error e => rw [hc] at hrun; simp at hrun
    | ok q =>
      rw [hc] at hrun
      simp only at hrun
      cases hloop : chunkLoop q toInt mk (calTimeRange parse now flags).1 flags.trackName 1
          flags.chunkSize step fuel 0 [Action.play] with
      | panicked f => rw [hloop] at hrun; simp at hrun
      | outOfFuel => rw [hloop] at hrun; simp at hrun
      | finished pre =>
        rw [hloop] at hrun
        simp only [Run.finished.injEq] at hrun
        obtain ⟨hl, hh⟩ := chunkLoop_discipline q toInt mk _ _ _ _ _ fuel 0 [Action.play] pre
          hloop rfl rfl
        refine ⟨pre, hrun.symm, hl, hh, ?_⟩
        rw [← hrun, addsLocked_append, hl, hh]
        rfl

/-- Witness of C9: a run over two minutes in chunks of one minute in which every
query answers a matrix of one point. -/
theorem playMetrics_terminal_add_unlocked_witness :
    playMetrics parseNothing 0 (offsetFlags (2 * minute) minute)
        (constClient (Value.matrix [SampleStream.mk [SamplePair.mk 0 (7 : Int)]]))
        (fun v => v) keepSamples [] 4
      = Run.finished
          [Action.play,
           Action.queryRange ⟨-120000000000, -60000000000, 1000000000⟩,
           Action.lock, Action.add [[(7, 7)]], Action.unlock,
           Action.queryRange ⟨-60000000000, 0, 1000000000⟩,
           Action.lock, Action.add [[(7, 7)]], Action.unlock,
           Action.queryRange ⟨0, 60000000000, 1000000000⟩,
           Action.lock, Action.add [[(7, 7)]], Action.unlock,
           Action.add [[]], Action.receiveDone]
    ∧ ∃ pre,
        [Action.play,
           Action.queryRange ⟨-120000000000, -60000000000, 1000000000⟩,
           Action.lock, Action.add [[(7, 7)]], Action.unlock,
           Action.queryRange ⟨-60000000000, 0, 1000000000⟩,
           Action.lock, Action.add [[(7, 7)]], Action.unlock,
           Action.queryRange ⟨0, 60000000000, 1000000000⟩,
           Action.lock, Action.add [[(7, 7)]], Action.unlock,
           Action.add [[]], Action.receiveDone]
          = pre ++ [Action.add [([] : List WavSample)], Action.receiveDone]
        ∧ addsLocked false pre = true ∧ heldAfter false pre = false
        ∧ addsLocked false
            [Action.play,
             Action.queryRange ⟨-120000000000, -60000000000, 1000000000⟩,
             Action.lock, Action.add [[(7, 7)]], Action.unlock,
             Action.queryRange ⟨-60000000000, 0, 1000000000⟩,
             Action.lock, Action.add [[(7, 7)]], Action.unlock,
             Action.queryRange ⟨0, 60000000000, 1000000000⟩,
             Action.lock, Action.add [[(7, 7)]], Action.unlock,
             Action.add [([] : List WavSample)], Action.receiveDone] = false :=
  ⟨rfl,
    playMetrics_terminal_add_unlocked parseNothing 0 (offsetFlags (2 * minute) minute)
      (constClient (Value.matrix [SampleStream.mk [SamplePair.mk 0 (7 : Int)]]))
      (fun v => v) keepSamples [] 4 _ (by rfl)⟩

/-- C8. Skip-on-empty, over a metrics source and a decoder that never fail.
A query result with zero data points (an empty matrix, a matrix of empty
series, or a result that is not a matrix) makes `getAudioChunk` return an
empty chunk. The run of `playMetrics` queries every index `0..step` in order,
whether or not earlier indices were empty, and the streamers it appends are,
in index order, those of the indices whose result has at least one data
point, followed by the completion callback. -/
theorem playMetrics_skip_on_empty {E V σ : Type} (parse : String → Option Int) (now : Int)
    (flags : Flags) (answer : String → Range → Value V) (toInt : V → Int)
    (src : List WavSample → σ) (callback : σ) (fuel : Nat) (step : Int)
    (hdiv : Duration.div (Time.Sub (calTimeRange parse now flags).2
      (calTimeRange parse now flags).1) flags.chunkSize = some step)
    (hstep : step < maxDuration) (hfuel : (step + 1).toNat + 1 ≤ fuel) :
    (∀ (q : String → Range → Except E (Value V)) (value : Value V) (n : Int),
        q flags.trackName (chunkRange (calTimeRange parse now flags).1 1 flags.chunkSize n)
          = Except.ok value →
        dataPoints value = 0 →
        getAudioChunk q toInt (calTimeRange parse now flags).1 flags.trackName 1
          flags.chunkSize n = Except.ok [])
    ∧ ∃ trace,
        playMetrics parse now flags
            (fun _ => (Except.ok (fun t r => (Except.ok (answer t r) : Except E (Value V)))
              : Except E (String → Range → Except E (Value V))))
            toInt (fun d => (Except.ok (src d) : Except E σ)) callback fuel
          = Run.finished trace
        ∧ queried trace
          = (List.range (step + 1).toNat).map (fun (j : Nat) =>
              chunkRange (calTimeRange parse now flags).1 1 flags.chunkSize (j : Int))
        ∧ added trace
          = ((List.range (step + 1).toNat).filter (fun (j : Nat) =>
                decide (dataPoints (answer flags.trackName
                  (chunkRange (calTimeRange parse now flags).1 1 flags.chunkSize (j : Int)))
                  ≠ 0))).map
              (fun (j : Nat) => src (chunkOf toInt (answer flags.trackName
                (chunkRange (calTimeRange parse now flags).1 1 flags.chunkSize (j : Int)))))
            ++ [callback] := by
  constructor
  · intro q value n hq h0
    have hlen := chunkOf_length toInt value
    rw [h0] at hlen
    simp only [getAudioChunk, hq]
    rw [List.length_eq_zero.mp hlen]
  · refine ⟨_, playMetrics_finished parse now flags answer toInt src callback fuel step hdiv
      hstep hfuel, ?_, ?_⟩
    · have h1 : queried [(Action.play : Action σ)] = [] := rfl
      have h2 : queried [Action.add [callback], Action.receiveDone] = [] := rfl
      rw [queried_append, queried_append, queried_flatMap, h1, h2]
      simp only [queried_iteration, List.nil_append, List.append_nil]
      exact flatMap_singleton_map _ _
    · have h1 : added [(Action.play : Action σ)] = [] := rfl
      have h2 : added [Action.add [callback], Action.receiveDone] = [callback] := rfl
      rw [added_append, added_append, added_flatMap, h1, h2]
      simp only [added_iteration, List.nil_append, chunkOf_length]
      rw [flatMap_skip]

/-- Witness of C8: two minutes in chunks of one minute, where only the last of
the three queries, the one starting at the instant 0, has a data point. -/
theorem playMetrics_skip_on_empty_witness :
    (Duration.div (Time.Sub (calTimeRange parseNothing 0 (offsetFlags (2 * minute) minute)).2
        (calTimeRange parseNothing 0 (offsetFlags (2 * minute) minute)).1)
        (offsetFlags (2 * minute) minute).chunkSize = some 2)
    ∧ (2 : Int) < maxDuration
    ∧ ((2 : Int) + 1).toNat + 1 ≤ 4
    ∧ (playMetrics parseNothing 0 (offsetFlags (2 * minute) minute)
          (fun _ => (Except.ok (fun t r => (Except.ok (pointAtZero t r) : Except Unit (Value Int)))
            : Except Unit (String → Range → Except Unit (Value Int))))
          (fun v => v) (fun d => (Except.ok d : Except Unit (List WavSample))) [] 4
        = Run.finished
            [Action.play,
             Action.queryRange ⟨-120000000000, -60000000000, 1000000000⟩,
             Action.queryRange ⟨-60000000000, 0, 1000000000⟩,
             Action.queryRange ⟨0, 60000000000, 1000000000⟩,
             Action.lock, Action.add [[(7, 7)]], Action.unlock,
             Action.add [[]], Action.receiveDone])
    ∧ ((∀ (q : String → Range → Except Unit (Value Int)) (value : Value Int) (n : Int),
          q (offsetFlags (2 * minute) minute).trackName
              (chunkRange (calTimeRange parseNothing 0 (offsetFlags (2 * minute) minute)).1 1
                (offsetFlags (2 * minute) minute).chunkSize n)
            = Except.ok value →
          dataPoints value = 0 →
          getAudioChunk q (fun v => v)
            (calTimeRange parseNothing 0 (offsetFlags (2 * minute) minute)).1
            (offsetFlags (2 * minute) minute).trackName 1
            (offsetFlags (2 * minute) minute).chunkSize n = Except.ok [])
      ∧ ∃ trace,
          playMetrics parseNothing 0 (offsetFlags (2 * minute) minute)
              (fun _ => (Except.ok (fun t r => (Except.ok (pointAtZero t r) : Except Unit (Value Int)))
                : Except Unit (String → Range → Except Unit (Value Int))))
              (fun v => v) (fun d => (Except.ok d : Except Unit (List WavSample))) [] 4
            = Run.finished trace
          ∧ queried trace
            = (List.range ((2 : Int) + 1).toNat).map (fun (j : Nat) =>
                chunkRange (calTimeRange parseNothing 0 (offsetFlags (2 * minute) minute)).1 1
                  (offsetFlags (2 * minute) minute).chunkSize (j : Int))
          ∧ added trace
            = ((List.range ((2 : Int) + 1).toNat).filter (fun (j : Nat) =>
                  decide (dataPoints (pointAtZero (offsetFlags (2 * minute) minute).trackName
                    (chunkRange (calTimeRange parseNothing 0 (offsetFlags (2 * minute) minute)).1 1
                      (offsetFlags (2 * minute) minute).chunkSize (j : Int)))
                    ≠ 0))).map
                (fun (j : Nat) => (fun d => d) (chunkOf (fun v => v)
                  (pointAtZero (offsetFlags (2 * minute) minute).trackName
                    (chunkRange (calTimeRange parseNothing 0 (offsetFlags (2 * minute) minute)).1 1
                      (offsetFlags (2 * minute) minute).chunkSize (j : Int)))))
              ++ [[]]) :=
  ⟨by decide, by decide, by decide, by rfl,
    playMetrics_skip_on_empty parseNothing 0 (offsetFlags (2 * minute) minute) pointAtZero
      (fun v => v) (fun d => d) [] 4 2 (by decide) (by decide) (by decide)⟩

/-- C6, amended. Window partition over a metrics source and a decoder that never
fail: for every total duration `D = endT.Sub(startT) ≥ 0` and chunk size `C > 0`
such that `(floor(D/C) + 1) * C` does not exceed the largest duration, the chunk
loop runs exactly `floor(D/C) + 1` turns, turn `n` queries the window
`[start + n*C, start + (n+1)*C)`, and each window ends where the next one
starts. -/
theorem playMetrics_window_partition {E V σ : Type} (parse : String → Option Int) (now : Int)
    (flags : Flags) (answer : String → Range → Value V) (toInt : V → Int)
    (src : List WavSample → σ) (callback : σ) (fuel : Nat) (startT endT : Int)
    (hcal : calTimeRange parse now flags = (startT, endT))
    (hD : 0 ≤ Time.Sub endT startT) (hC : 0 < flags.chunkSize)
    (hfit : (Time.Sub endT startT / flags.chunkSize + 1) * flags.chunkSize ≤ maxDuration)
    (hfuel : (Time.Sub endT startT / flags.chunkSize + 1).toNat + 1 ≤ fuel) :
    ∃ trace,
      playMetrics parse now flags
          (fun _ => (Except.ok (fun t r => (Except.ok (answer t r) : Except E (Value V)))
            : Except E (String → Range → Except E (Value V))))
          toInt (fun d => (Except.ok (src d) : Except E σ)) callback fuel
        = Run.finished trace
      ∧ ((queried trace).length : Int) = Time.Sub endT startT / flags.chunkSize + 1
      ∧ queried trace
        = (List.range (Time.Sub endT startT / flags.chunkSize + 1).toNat).map
            (fun (n : Nat) =>
              ({ Start := startT + (n : Int) * flags.chunkSize
                 End := startT + ((n : Int) + 1) * flags.chunkSize
                 Step := second } : Range))
      ∧ List.Chain' (fun a b => a.End = b.Start) (queried trace) := by
  obtain ⟨trace, hrun, hq⟩ := @playMetrics_windows_aux E V σ parse now flags answer toInt src
    callback fuel startT endT hcal hD hC hfit hfuel
  have hnn := Int.ediv_nonneg hD (le_of_lt hC)
  refine ⟨trace, hrun, ?_, hq, ?_⟩
  · rw [hq, List.length_map, List.length_range]
    omega
  · rw [hq, List.chain'_map]
    cases (Time.Sub endT startT / flags.chunkSize + 1).toNat with
    | zero => simp
    | succ m =>
      rw [List.chain'_range_succ]
      intro k _
      simp only [Nat.succ_eq_add_one, Nat.cast_add, Nat.cast_one]

/-- Witness of C6, amended: two minutes in chunks of one minute. -/
theorem playMetrics_window_partition_witness :
    calTimeRange parseNothing 0 (offsetFlags (2 * minute) minute) = (-120000000000, 0)
    ∧ 0 ≤ Time.Sub 0 (-120000000000)
    ∧ 0 < (offsetFlags (2 * minute) minute).chunkSize
    ∧ (Time.Sub 0 (-120000000000) / (offsetFlags (2 * minute) minute).chunkSize + 1)
        * (offsetFlags (2 * minute) minute).chunkSize ≤ maxDuration
    ∧ (Time.Sub 0 (-120000000000) / (offsetFlags (2 * minute) minute).chunkSize + 1).toNat + 1 ≤ 4
    ∧ ∃ trace,
        playMetrics parseNothing 0 (offsetFlags (2 * minute) minute)
            (fun _ => (Except.ok (fun t r => (Except.ok (pointAtZero t r) : Except Unit (Value Int)))
              : Except Unit (String → Range → Except Unit (Value Int))))
            (fun v => v) (fun d => (Except.ok d : Except Unit (List WavSample))) [] 4
          = Run.finished trace
        ∧ ((queried trace).length : Int)
          = Time.Sub 0 (-120000000000) / (offsetFlags (2 * minute) minute).chunkSize + 1
        ∧ queried trace
          = (List.range (Time.Sub 0 (-120000000000)
                / (offsetFlags (2 * minute) minute).chunkSize + 1).toNat).map
              (fun (n : Nat) =>
                ({ Start := -120000000000 + (n : Int) * (offsetFlags (2 * minute) minute).chunkSize
                   End := -120000000000
                      + ((n : Int) + 1) * (offsetFlags (2 * minute) minute).chunkSize
                   Step := second } : Range))
        ∧ List.Chain' (fun a b => a.End = b.Start) (queried trace) :=
  ⟨by decide, by decide, by decide, by decide, by decide,
    playMetrics_window_partition parseNothing 0 (offsetFlags (2 * minute) minute) pointAtZero
      (fun v => v) (fun d => d) [] 4 (-120000000000) 0 (by decide) (by decide) (by decide)
      (by decide) (by decide)⟩

/-- C6 as stated fails. With `-offset` and `-chunk` both `2^62` ns and no start or
end time, `D = C = 2^62`: the loop runs `floor(D/C) + 1 = 2` turns, and in turn 1
the product `chunkSize * 2` wraps to `-2^63`, so the window queried is
`[0, -2^62 - 2^63)` and not `[start + C, start + 2*C) = [0, 2^62)`. -/
theorem playMetrics_last_window_wraps :
    calTimeRange parseNothing 0 (offsetFlags (2 ^ 62) (2 ^ 62)) = (-2 ^ 62, 0)
    ∧ Time.Sub 0 (-2 ^ 62) = 2 ^ 62
    ∧ Run.queried (playMetrics parseNothing 0 (offsetFlags (2 ^ 62) (2 ^ 62))
          (constClient (Value.none : Value Int)) (fun v => v) keepSamples [] 3)
        = [{ Start := -2 ^ 62, End := 0, Step := second },
           { Start := 0, End := -2 ^ 62 - 2 ^ 63, Step := second }]
    ∧ Run.queried (playMetrics parseNothing 0 (offsetFlags (2 ^ 62) (2 ^ 62))
          (constClient (Value.none : Value Int)) (fun v => v) keepSamples [] 3)
        ≠ (List.range 2).map (fun (n : Nat) =>
            ({ Start := -2 ^ 62 + (n : Int) * 2 ^ 62
               End := -2 ^ 62 + ((n : Int) + 1) * 2 ^ 62
               Step := second } : Range)) := by
  decide

/-- C5 as stated fails. With an offset of two minutes, a chunk of one minute,
no start or end time and `now = 0`, the run queries three windows, not two:
the loop also runs for `i = step = 2` and queries `[now, now + 1m)`. -/
theorem three_windows_at_zero :
    Run.queried (playMetrics parseNothing 0 (offsetFlags (2 * minute) minute)
          (constClient (Value.none : Value Int)) (fun v => v) keepSamples [] 4)
        = [{ Start := -2 * minute, End := -minute, Step := second },
           { Start := -minute, End := 0, Step := second },
           { Start := 0, End := minute, Step := second }]
    ∧ (Run.queried (playMetrics parseNothing 0 (offsetFlags (2 * minute) minute)
          (constClient (Value.none : Value Int)) (fun v => v) keepSamples [] 4)).length ≠ 2 := by
  decide

/-- C5, amended. End-to-end scenario over a metrics source and a decoder that
never fail: with an offset of two minutes, a chunk size of one minute and no
start or end time, `playMetrics` queries exactly three windows, each exactly
60 seconds wide: `[now-2m, now-1m)`, `[now-1m, now)` and `[now, now+1m)`. -/
theorem playMetrics_two_minutes {E V σ : Type} (parse : String → Option Int) (now : Int)
    (url track : String) (answer : String → Range → Value V) (toInt : V → Int)
    (src : List WavSample → σ) (callback : σ) (fuel : Nat) :
    ∃ trace,
      playMetrics parse now
          { prometheusURL := url, offset := 2 * minute, startTime := "", endTime := ""
            trackName := track, chunkSize := minute }
          (fun _ => (Except.ok (fun t r => (Except.ok (answer t r) : Except E (Value V)))
            : Except E (String → Range → Except E (Value V))))
          toInt (fun d => (Except.ok (src d) : Except E σ)) callback (fuel + 4)
        = Run.finished trace
      ∧ queried trace
        = [{ Start := now - 2 * minute, End := now - minute, Step := second },
           { Start := now - minute, End := now, Step := second },
           { Start := now, End := now + minute, Step := second }]
      ∧ ∀ w ∈ queried trace, w.End - w.Start = 60 * second := by
  have hneg : Duration.neg (2 * minute) = -120000000000 := by decide
  have hcal : calTimeRange parse now
      { prometheusURL := url, offset := 2 * minute, startTime := "", endTime := ""
        trackName := track, chunkSize := minute } = (now - 120000000000, now) := by
    simp only [calTimeRange, parseTime, Time.After, Time.Before, Time.Add, hneg, if_true,
      lt_self_iff_false, decide_False, Bool.false_eq_true, if_false]
    have hlt : ¬ now < now + -120000000000 := by omega
    simp only [hlt, decide_False, Bool.false_eq_true, if_false]
    rfl
  have hsub : Time.Sub now (now - 120000000000) = 120000000000 := by
    have : now - (now - 120000000000) = 120000000000 := by omega
    unfold Time.Sub
    rw [this]
    decide
  have hquot : Time.Sub now (now - 120000000000) / minute = 2 := by
    rw [hsub]
    decide
  obtain ⟨trace, hrun, hq⟩ := @playMetrics_windows_aux E V σ parse now
    { prometheusURL := url, offset := 2 * minute, startTime := "", endTime := ""
      trackName := track, chunkSize := minute }
    answer toInt src callback (fuel + 4) (now - 120000000000) now hcal
    (by rw [hsub]; decide) (by show (0 : Int) < minute; decide)
    (by
      show (Time.Sub now (now - 120000000000) / minute + 1) * minute ≤ maxDuration
      rw [hquot]
      decide)
    (by
      show (Time.Sub now (now - 120000000000) / minute + 1).toNat + 1 ≤ fuel + 4
      rw [hquot]
      simp)
  have hlist : queried trace
      = [{ Start := now - 2 * minute, End := now - minute, Step := second },
         { Start := now - minute, End := now, Step := second },
         { Start := now, End := now + minute, Step := second }] := by
    rw [hq]
    show (List.range (Time.Sub now (now - 120000000000) / minute + 1).toNat).map _ = _
    rw [hquot]
    have h3 : ((2 : Int) + 1).toNat = 3 := by decide
    rw [h3]
    have hr : List.range 3 = [0, 1, 2] := by decide
    rw [hr]
    simp only [List.map_cons, List.map_nil, minute, second]
    simp only [List.cons.injEq, Range.mk.injEq, and_true]
    refine ⟨⟨?_, ?_⟩, ⟨?_, ?_⟩, ?_, ?_⟩ <;> push_cast <;> omega
  refine ⟨trace, hrun, hlist, ?_⟩
  intro w hw
  rw [hlist] at hw
  simp only [List.mem_cons, List.mem_singleton, List.not_mem_nil, or_false] at hw
  rcases hw with rfl | rfl | rfl <;> simp only [minute, second] <;> omega

end Tiplay
